import Mathlib

/-!
Shallow embedding of `realtime.py`: a real-time transcription pipeline that
records audio in fixed-size chunks, transcribes each chunk, and stitches the
per-chunk word lists into one transcript by trimming the overlap between
consecutive chunks.  Word timestamps are modelled as rationals, the mutable
state of each component as an explicit structure, and each processing step as
a pure state-passing function.  `difflib.SequenceMatcher.find_longest_match`
(as called by `_update_transcript`: `isjunk = None`, default `autojunk = True`,
full ranges `(0, len(a), 0, len(b))`) is embedded including its auto-junk
heuristic; Python dicts keyed by integers are modelled as functions `Nat → Nat`
with default value 0, matching `dict.get(key, 0)`.
-/

namespace Realtime

/-- CONFIG constant `CHUNK_LEN_SEC = 4` from realtime.py. -/
def CHUNK_LEN_SEC : Nat := 4

/-- CONFIG constant `CHUNK_SIZE = 1024` (frames per buffer) from realtime.py. -/
def CHUNK_SIZE : Nat := 1024

/-- CONFIG constant `RATE = 16000` from realtime.py. -/
def RATE : Nat := 16000

/-- CONFIG constant `OVERLAP_SEC = 1` from realtime.py (seconds, as a rational). -/
def OVERLAP_SEC : ℚ := 1

/-- `self.samples_per_chunk = RATE * CHUNK_LEN_SEC` from `AudioRecorder.__init__`. -/
def samples_per_chunk : Nat := RATE * CHUNK_LEN_SEC

/-- A word-level transcription result: attributes `w.word`, `w.start`, `w.end`
of the objects in `response.words`.  Timestamps are chunk-relative seconds. -/
structure Word where
  word : String
  start : ℚ
  «end» : ℚ
deriving DecidableEq

/-- The merger state owned by `TranscriptionManager`: `self.prev_words` and
`self.last_word_end` (the fields read and written by `_update_transcript`). -/
structure TranscriptionManager where
  prev_words : List Word
  last_word_end : ℚ
deriving DecidableEq

/-- `str.strip()` on the character list: drop whitespace from both ends.
(Python strips Unicode whitespace; the words handled here are ASCII, where
`Char.isWhitespace` agrees.) -/
def stripChars (cs : List Char) : List Char :=
  ((cs.dropWhile Char.isWhitespace).reverse.dropWhile Char.isWhitespace).reverse

/-- `str.strip()`. -/
def strip (s : String) : String := ⟨stripChars s.data⟩

/-- `str.lower()`, character by character (ASCII-adequate, like the inputs). -/
def lower (s : String) : String := ⟨s.data.map Char.toLower⟩

/-- The normalization `w.word.strip().lower()` used when building the overlap
candidate pairs. -/
def normText (s : String) : String := lower (strip s)

/-- Rational subtraction written with `mkRat` so that it evaluates by kernel
reduction (`Rat.sub` is irreducible); `ratSub_eq_sub` below proves it equal
to `-`. -/
def ratSub (a b : ℚ) : ℚ := mkRat (a.num * (b.den : Int) - b.num * (a.den : Int)) (a.den * b.den)

/-- The list comprehension
`[(w.word.strip().lower(), w.end) for w in self.prev_words if w.end > (self.prev_words[-1].end - OVERLAP_SEC)]`,
iterated element by element.  The condition evaluates `self.prev_words[-1]`,
which raises `IndexError` on an empty list; that partiality is modelled by
`Option` (the `[-1]` access is `getLast?`).  On an empty iterable the
comprehension body never runs. -/
def prevOverlapAux (prev_words : List Word) : List Word → Option (List (String × ℚ))
  | [] => some []
  | w :: ws =>
    match prev_words.getLast? with
    | none => none
    | some last =>
      match prevOverlapAux prev_words ws with
      | none => none
      | some rest =>
        some (if last.«end» - OVERLAP_SEC < w.«end» then (normText w.word, w.«end») :: rest else rest)

/-- `prev_overlap` from `_update_transcript` (line 164), as an `Option` to model
the potential `IndexError` of `self.prev_words[-1]`. -/
def prev_overlap? (prev_words : List Word) : Option (List (String × ℚ)) :=
  prevOverlapAux prev_words prev_words

/-- The value of `prev_overlap` in the (always reachable) non-error case:
an empty `prev_words` yields an empty comprehension, a non-empty one filters
against its last word's end time. -/
def prevOverlapList (prev_words : List Word) : List (String × ℚ) :=
  match prev_words.getLast? with
  | none => []
  | some last =>
    (prev_words.filter (fun w => decide (ratSub last.«end» OVERLAP_SEC < w.«end»))).map
      (fun w => (normText w.word, w.«end»))

/-- `curr_overlap` from `_update_transcript` (line 166):
`[(w.word.strip().lower(), w.start) for w in words if w.start < OVERLAP_SEC]`. -/
def curr_overlap (words : List Word) : List (String × ℚ) :=
  (words.filter (fun w => decide (w.start < OVERLAP_SEC))).map
    (fun w => (normText w.word, w.start))

/-- `difflib.Match` named tuple `(a, b, size)`. -/
structure Match where
  a : Nat
  b : Nat
  size : Nat
deriving DecidableEq

/-- `SequenceMatcher.__chain_b`: `b2j[x]` is the ascending list of positions of
`x` in `b`, with the auto-junk purge (with `isjunk = None` nothing is junk, and
when `len(b) >= 200` every element occurring more than `len(b) // 100 + 1`
times is popular and removed from `b2j`). -/
def b2j (b : List String) (x : String) : List Nat :=
  let idxs := (List.range b.length).filter (fun j => decide (b.get? j = some x))
  if 200 ≤ b.length ∧ b.length / 100 + 1 < idxs.length then [] else idxs

/-- The inner loop of `find_longest_match` over `for j in b2j.get(a[i], nothing)`
(full ranges, so the `j < blo` / `j >= bhi` guards never fire):
`k = newj2len[j] = j2len.get(j-1, 0) + 1`, updating the running best when
`k > bestsize`.  `j2len.get(j-1, 0)` reads the absent key `-1` as 0 when
`j = 0`, and `i-k+1`, `j-k+1` are written `i+1-k`, `j+1-k` (equal, since a
diagonal chain ending at `(i, j)` has length at most `min i j + 1`). -/
def innerLoop (i : Nat) (j2len : Nat → Nat) :
    List Nat → Match → (Nat → Nat) → Match × (Nat → Nat)
  | [], best, newj2len => (best, newj2len)
  | j :: js, best, newj2len =>
    let k := (if j = 0 then 0 else j2len (j - 1)) + 1
    let newj2len' : Nat → Nat := fun x => if x = j then k else newj2len x
    let best' := if best.size < k then ⟨i + 1 - k, j + 1 - k, k⟩ else best
    innerLoop i j2len js best' newj2len'

/-- The outer loop of `find_longest_match` over `for i in range(alo, ahi)`
(full range, iterating over the elements of `a` with their index), starting
each row from a fresh empty `newj2len`. -/
def outerLoop (bmap : String → List Nat) :
    List String → Nat → Match → (Nat → Nat) → Match
  | [], _, best, _ => best
  | x :: rest, i, best, j2len =>
    let r := innerLoop i j2len (bmap x) best (fun _ => 0)
    outerLoop bmap rest (i + 1) r.1 r.2

/-- The first while loop of `find_longest_match`: extend the best block
backwards while `besti > alo and bestj > blo and a[besti-1] == b[bestj-1]`
(`isjunk = None` makes `bjunk` empty, so `not isbjunk(...)` always holds). -/
def extendBack (a b : List String) : Nat → Nat → Nat → Match
  | 0, bj, bs => ⟨0, bj, bs⟩
  | bi + 1, 0, bs => ⟨bi + 1, 0, bs⟩
  | bi + 1, bj + 1, bs =>
    if (a.get? bi).isSome ∧ a.get? bi = b.get? bj then extendBack a b bi bj (bs + 1)
    else ⟨bi + 1, bj + 1, bs⟩

/-- The second while loop of `find_longest_match`: extend forwards while
`besti+bestsize < ahi and bestj+bestsize < bhi and a[besti+bestsize] == b[bestj+bestsize]`.
The loop runs at most `len(a)` times, so it is written with fuel
`len(a) + 1`; the fuel never runs out.  (The remaining two junk-extension
while loops of the source test `isbjunk`, which is constantly false with
`isjunk = None`, so they never execute and are omitted.) -/
def extendFwd (a b : List String) (bi bj : Nat) : Nat → Nat → Match
  | 0, bs => ⟨bi, bj, bs⟩
  | fuel + 1, bs =>
    if (a.get? (bi + bs)).isSome ∧ a.get? (bi + bs) = b.get? (bj + bs) then
      extendFwd a b bi bj fuel (bs + 1)
    else ⟨bi, bj, bs⟩

/-- `SequenceMatcher(None, a, b).find_longest_match(0, len(a), 0, len(b))`
as invoked by `_update_transcript` (line 172-173). -/
def find_longest_match (a b : List String) : Match :=
  let m0 := outerLoop (b2j b) a 0 ⟨0, 0, 0⟩ (fun _ => 0)
  let m1 := extendBack a b m0.a m0.b m0.size
  extendFwd a b m1.a m1.b (a.length + 1) m1.size

/-- `prev_words_only = [w for w, _ in prev_overlap]` (line 170), over the
non-error value of the comprehension. -/
def prev_words_only (prev_words : List Word) : List String :=
  (prevOverlapList prev_words).map Prod.fst

/-- `curr_words_only = [w for w, _ in curr_overlap]` (line 171). -/
def curr_words_only (words : List Word) : List String :=
  (curr_overlap words).map Prod.fst

/-- `trim_index` from `_update_transcript` (lines 176-178): 0, unless
`match.size > 2`, in which case `match.b + match.size`. -/
def trim_index (prev_words words : List Word) : Nat :=
  let m := find_longest_match (prev_words_only prev_words) (curr_words_only words)
  if 2 < m.size then m.b + m.size else 0

/-- The observable outcome of one `_update_transcript` call: the state after
the call, the `new_words` list, the per-word texts of the generator
`(w.word.strip() for w in new_words)` in the `print`, and the printed string
(`None` when nothing is printed). -/
structure UpdateResult where
  state : TranscriptionManager
  new_words : List Word
  emitted_texts : List String
  printed : Option String
deriving DecidableEq

/-- `_update_transcript` (lines 158-191), total form.  The early return on
`if not words` leaves the state untouched; otherwise `new_words = words[trim_index:]`
is emitted if non-empty (updating `last_word_end` to `new_words[-1].end`), and
`prev_words` is replaced by the full `words` list. -/
def update (self : TranscriptionManager) (words : List Word) : UpdateResult :=
  if words = [] then ⟨self, [], [], none⟩
  else
    let new_words := words.drop (trim_index self.prev_words words)
    match new_words.getLast? with
    | none => ⟨⟨words, self.last_word_end⟩, new_words, [], none⟩
    | some lw =>
      let texts := new_words.map (fun w => strip w.word)
      ⟨⟨words, lw.«end»⟩, new_words, texts,
        some ((" ") ++ String.intercalate (" ") texts)⟩

/-- `_update_transcript` with the `self.prev_words[-1]` access modelled as a
fallible step (`Option`), exactly as the source orders the computation. -/
def update_transcript? (self : TranscriptionManager) (words : List Word) :
    Option UpdateResult :=
  if words = [] then some ⟨self, [], [], none⟩
  else
    match prev_overlap? self.prev_words with
    | none => none
    | some pov =>
      let m := find_longest_match (pov.map Prod.fst) (curr_words_only words)
      let t := if 2 < m.size then m.b + m.size else 0
      let new_words := words.drop t
      match new_words.getLast? with
      | none => some ⟨⟨words, self.last_word_end⟩, new_words, [], none⟩
      | some lw =>
        let texts := new_words.map (fun w => strip w.word)
        some ⟨⟨words, lw.«end»⟩, new_words, texts,
          some ((" ") ++ String.intercalate (" ") texts)⟩

/-- One iteration of `_process_loop` after a chunk was dequeued: a failed
transcription (`_transcribe_chunk` returned `None`, or a response without
word-level timestamps) skips `_update_transcript` entirely; a successful one
runs it.  The `Option` argument is the outcome of `_transcribe_chunk`. -/
def process_response (self : TranscriptionManager) (response : Option (List Word)) :
    TranscriptionManager × Option String :=
  match response with
  | none => (self, none)
  | some ws =>
    let r := update self ws
    (r.state, r.printed)

/-- `_process_loop` over a finite schedule of transcription outcomes, in FIFO
order, collecting the printed fragments. -/
def process_all (self : TranscriptionManager) :
    List (Option (List Word)) → TranscriptionManager × List String
  | [] => (self, [])
  | resp :: rest =>
    let p := process_response self resp
    let q := process_all p.1 rest
    (q.1, p.2.toList ++ q.2)

/-- The chunk-accumulation state of `AudioRecorder`: `self.current_chunk`
(a list of byte buffers, modelled as lists of samples), `self.total_samples`
and `self.chunk_number`. -/
structure AudioRecorder where
  current_chunk : List (List Int)
  total_samples : Nat
  chunk_number : Nat
deriving DecidableEq

/-- One iteration of `_record_loop` (lines 66-86) on a successful
`stream.read(CHUNK_SIZE)` returning `data`: append to `current_chunk`, add
`CHUNK_SIZE` to `total_samples`, and when `total_samples >= samples_per_chunk`
emit `b''.join(self.current_chunk)` and reset the accumulator. -/
def record_step (st : AudioRecorder) (data : List Int) : AudioRecorder × Option (List Int) :=
  let cur := st.current_chunk ++ [data]
  let tot := st.total_samples + CHUNK_SIZE
  if samples_per_chunk ≤ tot then
    (⟨[], 0, st.chunk_number + 1⟩, some cur.flatten)
  else
    (⟨cur, tot, st.chunk_number⟩, none)

/-- `_record_loop` over a finite stream of device reads, collecting the emitted
chunks in order. -/
def record_run (st : AudioRecorder) : List (List Int) → AudioRecorder × List (List Int)
  | [] => (st, [])
  | d :: ds =>
    let p := record_step st d
    let q := record_run p.1 ds
    (q.1, p.2.toList ++ q.2)

/-- Modelled from the spec: the length of the longest common diagonal run of
`a` and `b` ending exactly at positions `(i, j)` (the classic
longest-common-substring table).  Out-of-range positions contribute 0. -/
def suffRun (a b : List String) : Nat → Nat → Nat
  | 0, j => if (a.get? 0).isSome ∧ a.get? 0 = b.get? j then 1 else 0
  | i + 1, 0 => if (a.get? (i + 1)).isSome ∧ a.get? (i + 1) = b.get? 0 then 1 else 0
  | i + 1, j + 1 =>
    if (a.get? (i + 1)).isSome ∧ a.get? (i + 1) = b.get? (j + 1) then
      suffRun a b i j + 1
    else 0

/-- Modelled from the spec: the length of the longest contiguous common run of
tokens between `a` and `b` ("classic longest-common-substring-of-tokens"),
computed by brute force as the maximum of `suffRun` over all end positions. -/
def maxSuff (a b : List String) : Nat :=
  ((List.range a.length).map
    (fun i => ((List.range b.length).map (fun j => suffRun a b i j)).foldr max 0)).foldr max 0

/-- Modelled from the spec: `a` and `b` share a contiguous common run of
length `L` starting at positions `i` and `j`. -/
def isCommonRun (a b : List String) (i j L : Nat) : Prop :=
  i + L ≤ a.length ∧ j + L ≤ b.length ∧ ∀ t, t < L → a.get? (i + t) = b.get? (j + t)

instance (a b : List String) (i j L : Nat) : Decidable (isCommonRun a b i j L) :=
  inferInstanceAs (Decidable (i + L ≤ a.length ∧ j + L ≤ b.length ∧
    ∀ t, t < L → a.get? (i + t) = b.get? (j + t)))

/-- Modelled from the spec: a word list is chronologically ordered when start
times are non-decreasing along the list. -/
def Chronological (l : List Word) : Prop :=
  List.Chain' (fun u v : Word => u.start ≤ v.start) l

/-- Boolean check of chronological order, for the decidability instance. -/
def chronoCheck : List Word → Bool
  | [] => true
  | [_] => true
  | u :: v :: l => decide (u.start ≤ v.start) && chronoCheck (v :: l)

instance (l : List Word) : Decidable (Chronological l) :=
  decidable_of_iff (chronoCheck l = true) (by
    induction l with
    | nil => simp [chronoCheck, Chronological]
    | cons u t ih =>
      cases t with
      | nil => simp [chronoCheck, Chronological]
      | cons v t' =>
        simp only [chronoCheck, Bool.and_eq_true, decide_eq_true_eq, ih]
        simp only [Chronological, List.chain'_cons])

/-- Example previous chunk: tail words `brown fox jumps` end within
`OVERLAP_SEC` of the last word's end. -/
def exPrev : List Word :=
  [⟨"hello", 0, mkRat 1 2⟩, ⟨"brown", 3, mkRat 31 10⟩, ⟨"fox", mkRat 31 10, mkRat 16 5⟩,
   ⟨"jumps", mkRat 16 5, mkRat 33 10⟩]

/-- Example current chunk: head words `brown fox jumps` repeat the previous
tail (a 3-token overlap, above the threshold), then `over` is new. -/
def exCur : List Word :=
  [⟨"brown", 0, mkRat 1 10⟩, ⟨"fox", mkRat 1 10, mkRat 1 5⟩, ⟨"jumps", mkRat 1 5, mkRat 3 10⟩,
   ⟨"over", mkRat 3 10, mkRat 2 5⟩]

/-- Filler words with 195 pairwise distinct texts, all starting at time 0. -/
def ceFill : List Word := (List.range 195).map (fun n => ⟨("w") ++ Nat.repr n, 0, 0⟩)

/-- Previous chunk whose overlap tail is `y x x x`. -/
def cePrev : List Word :=
  [⟨"y", 0, mkRat 14 5⟩, ⟨"x", mkRat 14 5, mkRat 29 10⟩, ⟨"x", mkRat 29 10, 3⟩,
   ⟨"x", 3, mkRat 31 10⟩]

/-- Current chunk with exactly 200 words in the overlap window whose token
`x` occurs 4 times (more than `200 // 100 + 1 = 3`, so auto-junk purges it). -/
def ceCur : List Word :=
  ⟨"z", 0, 0⟩ :: ⟨"x", 0, 0⟩ :: ⟨"x", 0, 0⟩ :: ⟨"x", 0, 0⟩ :: ⟨"x", 0, 0⟩ :: ceFill

/-- A current chunk whose single word carries surrounding whitespace. -/
def exWs : List Word := [⟨" Hello ", 0, mkRat 1 2⟩]

/-- The freshly started recorder state (`start()` resets all accumulators). -/
def initRecorder : AudioRecorder := ⟨[], 0, 0⟩

/-- 63 device reads of `CHUNK_SIZE` zero samples each. -/
def ceFrames : List (List Int) := List.replicate 63 (List.replicate CHUNK_SIZE 0)

/-- The executable subtraction used in `prevOverlapList` is rational
subtraction. -/
theorem ratSub_eq_sub (a b : ℚ) : ratSub a b = a - b := by
  have ha : ((a.den : ℚ)) ≠ 0 := by exact_mod_cast a.den_ne_zero
  have hb : ((b.den : ℚ)) ≠ 0 := by exact_mod_cast b.den_ne_zero
  rw [ratSub, Rat.mkRat_eq_divInt, Rat.divInt_eq_div]
  conv_rhs => rw [← Rat.num_div_den a, ← Rat.num_div_den b]
  rw [div_sub_div _ _ ha hb]
  push_cast
  ring_nf

/-- The `prev_overlap` comprehension never raises when the iterated list has a
last element: it evaluates to the filtered, normalized pair list. -/
theorem prevOverlapAux_eq (pw : List Word) (last : Word) (h : pw.getLast? = some last)
    (l : List Word) :
    prevOverlapAux pw l =
      some ((l.filter (fun w => decide (last.«end» - OVERLAP_SEC < w.«end»))).map
        (fun w => (normText w.word, w.«end»))) := by
  induction l with
  | nil => simp [prevOverlapAux]
  | cons w ws ih =>
    rw [prevOverlapAux, h, ih]
    by_cases hc : last.«end» - OVERLAP_SEC < w.«end» <;> simp [List.filter_cons, hc]

/-- `prev_overlap` always evaluates without error, to `prevOverlapList`. -/
theorem prev_overlap?_eq (pw : List Word) :
    prev_overlap? pw = some (prevOverlapList pw) := by
  cases hl : pw.getLast? with
  | none =>
    have : pw = [] := List.getLast?_eq_none_iff.mp hl
    subst this
    simp [prev_overlap?, prevOverlapAux, prevOverlapList]
  | some last =>
    rw [prev_overlap?, prevOverlapAux_eq pw last hl, prevOverlapList, hl]
    have : ∀ w : Word,
        decide (last.«end» - OVERLAP_SEC < w.«end»)
          = decide (ratSub last.«end» OVERLAP_SEC < w.«end») := by
      intro w; rw [ratSub_eq_sub]
    simp only [this]

/-- The fallible and the total forms of `_update_transcript` agree: the
source's computation never hits the `IndexError` branch. -/
theorem update_transcript?_eq (self : TranscriptionManager) (words : List Word) :
    update_transcript? self words = some (update self words) := by
  by_cases hw : words = []
  · subst hw; rfl
  · simp only [update_transcript?, update, if_neg hw, prev_overlap?_eq, trim_index,
      prev_words_only]
    split <;> rename_i hg <;> simp only [hg]

/-- The matcher on an empty first sequence returns the zero match: no rows are
chained and neither extension loop can fire. -/
theorem flm_nil (b : List String) : find_longest_match [] b = ⟨0, 0, 0⟩ := by
  simp [find_longest_match, outerLoop, extendBack, extendFwd]

/-- In every branch of `update`, the `new_words` field is
`words[trim_index:]`. -/
theorem update_new_words (self : TranscriptionManager) (words : List Word) :
    (update self words).new_words = words.drop (trim_index self.prev_words words) := by
  by_cases hw : words = []
  · subst hw; simp [update]
  · simp only [update, if_neg hw]
    split <;> rfl

/-- C9: on an empty `current_words` list, `_update_transcript` returns
immediately: nothing is emitted or printed and the state (`prev_words` and
`last_word_end`) is exactly the state before the call. -/
theorem empty_words_early_return (self : TranscriptionManager) :
    update_transcript? self [] = some ⟨self, [], [], none⟩ := rfl

/-- C10: on a first chunk (empty `previous_words`) the update is total for
every `current_words` input: the comprehension over `prev_words` iterates over
no elements, so the `prev_words[-1]` access is never evaluated and the update
never reaches the error value. -/
theorem first_chunk_total (e : ℚ) (words : List Word) :
    (update_transcript? ⟨[], e⟩ words).isSome := by
  rw [update_transcript?_eq]; rfl

/-- C2 counterexample: after an empty chunk, `prev_words` is NOT overwritten
with the empty list — the early return on `if not words` skips the assignment,
so the previous chunk's words survive. -/
theorem empty_chunk_keeps_prev_words :
    (update ⟨[⟨"a", 0, 1⟩], 0⟩ []).state.prev_words = [⟨"a", 0, 1⟩] ∧
      ([⟨"a", 0, 1⟩] : List Word) ≠ [] := by
  exact ⟨rfl, by decide⟩

/-- C2 (amended): after processing a non-empty chunk the stored `prev_words`
is the full `current_words` list (not the emitted tail, also when a trim
occurred); after an empty chunk the update returns early and `prev_words`
is left unchanged. -/
theorem prev_words_stores_full_list (self : TranscriptionManager) (words : List Word) :
    (update self words).state.prev_words = if words = [] then self.prev_words else words := by
  by_cases hw : words = []
  · subst hw; simp [update]
  · rw [if_neg hw]
    simp only [update, if_neg hw]
    split <;> rfl

/-- C3: with empty `previous_words`, `trim_index` is 0 and the whole non-empty
current chunk is emitted, in order, with something printed. -/
theorem first_chunk_verbatim (e : ℚ) (words : List Word) (hw : words ≠ []) :
    trim_index [] words = 0 ∧ (update ⟨[], e⟩ words).new_words = words ∧
      (update ⟨[], e⟩ words).printed.isSome := by
  have ht : trim_index [] words = 0 := by
    simp [trim_index, prev_words_only, prevOverlapList, flm_nil]
  refine ⟨ht, ?_, ?_⟩
  · rw [update_new_words]
    show words.drop (trim_index [] words) = words
    rw [ht, List.drop_zero]
  · rw [update, if_neg hw]
    simp only [ht, List.drop_zero]
    cases hg : words.getLast? with
    | none => exact absurd (List.getLast?_eq_none_iff.mp hg) hw
    | some lw => simp [hg]

/-- C3 witness at a concrete one-word first chunk. -/
theorem first_chunk_verbatim_witness :
    ([⟨"hi", 0, 1⟩] : List Word) ≠ [] ∧
      (trim_index [] [⟨"hi", 0, 1⟩] = 0 ∧
        (update ⟨[], 0⟩ [⟨"hi", 0, 1⟩]).new_words = [⟨"hi", 0, 1⟩] ∧
        (update ⟨[], 0⟩ [⟨"hi", 0, 1⟩]).printed.isSome) :=
  ⟨by decide, first_chunk_verbatim 0 [⟨"hi", 0, 1⟩] (by decide)⟩

/-- C8: the emitted words are exactly `current_words[trim_index:]`, a
contiguous suffix of the input list, preserving chunk-internal order. -/
theorem order_preserved (self : TranscriptionManager) (words : List Word) :
    (update self words).new_words = words.drop (trim_index self.prev_words words) ∧
      (update self words).new_words <:+ words := by
  refine ⟨update_new_words self words, ?_⟩
  rw [update_new_words]
  exact ⟨words.take (trim_index self.prev_words words), List.take_append_drop _ _⟩

/-- C6: a failed transcription contributes zero words and no output, leaves
the merger state (`prev_words` and `last_word_end`) exactly unchanged, and the
processing loop continues with the remaining chunks exactly as if the failed
chunk had never been dequeued. -/
theorem failed_chunk_no_effect (self : TranscriptionManager)
    (rest : List (Option (List Word))) :
    process_response self none = (self, none) ∧
      process_all self (none :: rest) = process_all self rest := by
  refine ⟨rfl, ?_⟩
  simp [process_all, process_response]

/-- C5 counterexample: the transcriber word `" Hello "` is emitted as
`"Hello"` — the printed per-word text is the stripped original, not the
original text exactly. -/
theorem emitted_text_stripped :
    (update ⟨[], 0⟩ exWs).new_words = exWs ∧
      (update ⟨[], 0⟩ exWs).emitted_texts = [("Hello")] ∧
      (update ⟨[], 0⟩ exWs).printed = some (" Hello") ∧
      exWs.map Word.word = [(" Hello ")] ∧
      (("Hello") : String) ≠ " Hello " := by decide

/-- C5 (amended): lowercasing is used only for overlap comparison and never
reaches the output, but whitespace stripping does: each emitted word's text is
its original text with surrounding whitespace stripped, hence equal to the
original exactly whenever the original has no surrounding whitespace. -/
theorem emitted_text_trim_only (self : TranscriptionManager) (words : List Word) :
    (update self words).emitted_texts
        = (update self words).new_words.map (fun w => strip w.word) ∧
      ((∀ w ∈ words, strip w.word = w.word) →
        (update self words).emitted_texts = (update self words).new_words.map Word.word) := by
  have h1 : (update self words).emitted_texts
      = (update self words).new_words.map (fun w => strip w.word) := by
    by_cases hw : words = []
    · subst hw; simp [update]
    · simp only [update, if_neg hw]
      split <;> rename_i hg
      · rw [List.getLast?_eq_none_iff.mp hg]; rfl
      · rfl
  refine ⟨h1, fun hall => ?_⟩
  rw [h1]
  refine List.map_congr_left (fun w hmem => hall w ?_)
  have hsub : (update self words).new_words ⊆ words := by
    rw [update_new_words]; exact List.drop_subset _ _
  exact hsub hmem

/-- C5 amended-claim witness at a whitespace-free concrete input. -/
theorem emitted_text_trim_only_witness :
    (∀ w ∈ ([⟨"hi", 0, 1⟩] : List Word), strip w.word = w.word) ∧
      (update ⟨[], 0⟩ [⟨"hi", 0, 1⟩]).emitted_texts
        = (update ⟨[], 0⟩ [⟨"hi", 0, 1⟩]).new_words.map Word.word :=
  ⟨by decide, (emitted_text_trim_only ⟨[], 0⟩ [⟨"hi", 0, 1⟩]).2 (by decide)⟩

/-- C4: with `last` the final previous word, the previous overlap candidate
list is exactly the words of `prev` whose end time exceeds
`last.end - OVERLAP_SEC`, in list order, paired with their normalized text;
and the current overlap candidate list is exactly the words of `words` whose
start time is below `OVERLAP_SEC`, in list order, likewise normalized. -/
theorem overlap_candidate_sets (prev words : List Word) (last : Word)
    (hlast : prev.getLast? = some last) :
    prev_overlap? prev =
      some ((prev.filter (fun w => decide (last.«end» - OVERLAP_SEC < w.«end»))).map
        (fun w => (normText w.word, w.«end»))) ∧
    curr_overlap words =
      (words.filter (fun w => decide (w.start < OVERLAP_SEC))).map
        (fun w => (normText w.word, w.start)) :=
  ⟨prevOverlapAux_eq prev last hlast prev, rfl⟩

/-- C4 witness at the example previous/current chunks. -/
theorem overlap_candidate_sets_witness :
    exPrev.getLast? = some ⟨"jumps", mkRat 16 5, mkRat 33 10⟩ ∧
      (prev_overlap? exPrev =
        some ((exPrev.filter (fun w =>
            decide ((⟨"jumps", mkRat 16 5, mkRat 33 10⟩ : Word).«end» - OVERLAP_SEC < w.«end»))).map
          (fun w => (normText w.word, w.«end»))) ∧
      curr_overlap exCur =
        (exCur.filter (fun w => decide (w.start < OVERLAP_SEC))).map
          (fun w => (normText w.word, w.start))) :=
  ⟨by decide, overlap_candidate_sets exPrev exCur ⟨"jumps", mkRat 16 5, mkRat 33 10⟩ (by decide)⟩

/-- Sum of the lengths of equally-long buffers. -/
theorem sum_map_length_const (l : List (List Int)) (c : Nat)
    (h : ∀ f ∈ l, f.length = c) : (l.map List.length).sum = l.length * c := by
  induction l with
  | nil => simp
  | cons f fs ih =>
    have hf : f.length = c := h f (List.mem_cons_self f fs)
    have := ih (fun g hg => h g (List.mem_cons_of_mem f hg))
    simp [hf, this, Nat.succ_mul, Nat.add_comm]

/-- Every chunk emitted from a well-formed accumulator state over a stream of
full `CHUNK_SIZE`-sample reads has exactly `63 * CHUNK_SIZE` samples: the
accumulator fires at the first read that reaches `samples_per_chunk = 64000`
samples, which happens at 63 reads of 1024. -/
theorem record_run_lengths (stream : List (List Int))
    (hs : ∀ d ∈ stream, d.length = CHUNK_SIZE) :
    ∀ st : AudioRecorder,
      st.total_samples = st.current_chunk.length * CHUNK_SIZE →
      (∀ f ∈ st.current_chunk, f.length = CHUNK_SIZE) →
      st.current_chunk.length ≤ 62 →
      ∀ c ∈ (record_run st stream).2, c.length = 63 * CHUNK_SIZE := by
  induction stream with
  | nil => intro st _ _ _ c hc; simp [record_run] at hc
  | cons d ds ih =>
    intro st htot hframes hlen c hc
    have hd : d.length = CHUNK_SIZE := hs d (List.mem_cons_self d ds)
    have hs' : ∀ e ∈ ds, e.length = CHUNK_SIZE :=
      fun e he => hs e (List.mem_cons_of_mem d he)
    have hCS : CHUNK_SIZE = 1024 := rfl
    have hSP : samples_per_chunk = 64000 := rfl
    by_cases hemit : samples_per_chunk ≤ st.total_samples + CHUNK_SIZE
    · have hstep : record_step st d
          = (⟨[], 0, st.chunk_number + 1⟩, some (st.current_chunk ++ [d]).flatten) := by
        simp [record_step, hemit]
      have hrun : record_run st (d :: ds) =
          ((record_run ⟨[], 0, st.chunk_number + 1⟩ ds).1,
            (st.current_chunk ++ [d]).flatten :: (record_run ⟨[], 0, st.chunk_number + 1⟩ ds).2) := by
        rw [record_run, hstep]
        rfl
      rw [hrun] at hc
      rcases List.mem_cons.mp hc with hc2 | hc2
      · subst hc2
        have hall : ∀ f ∈ st.current_chunk ++ [d], f.length = CHUNK_SIZE := by
          intro f hf
          rcases List.mem_append.mp hf with hf | hf
          · exact hframes f hf
          · rw [List.mem_singleton.mp hf]; exact hd
        rw [List.length_flatten, sum_map_length_const _ CHUNK_SIZE hall]
        have h62 : st.current_chunk.length = 62 := by
          rw [htot, hCS, hSP] at hemit
          omega
        simp [h62]
      · exact ih hs' ⟨[], 0, st.chunk_number + 1⟩ (by simp) (by simp) (by simp) c hc2
    · have hstep : record_step st d
          = (⟨st.current_chunk ++ [d], st.total_samples + CHUNK_SIZE, st.chunk_number⟩, none) := by
        simp [record_step, hemit]
      have hrun : record_run st (d :: ds) =
          record_run ⟨st.current_chunk ++ [d], st.total_samples + CHUNK_SIZE, st.chunk_number⟩ ds := by
        rw [record_run, hstep]
        rfl
      rw [hrun] at hc
      have hlen' : st.current_chunk.length + 1 ≤ 62 := by
        rw [htot, hCS, hSP] at hemit
        omega
      refine ih hs' _ ?_ ?_ (by simpa using hlen') c hc
      · simp [htot, Nat.succ_mul]
      · intro f hf
        rcases List.mem_append.mp hf with hf | hf
        · exact hframes f hf
        · rw [List.mem_singleton.mp hf]; exact hd

/-- Feeding exactly `n` copies of a full read `f` to a state already holding
`m` full reads, with `m + n = 63`, emits exactly the one chunk made of 63
copies of `f` and resets the accumulator. -/
theorem record_run_replicate (f : List Int) :
    ∀ (n m cn : Nat), m + n = 63 → 0 < n →
      record_run ⟨List.replicate m f, m * CHUNK_SIZE, cn⟩ (List.replicate n f)
        = (⟨[], 0, cn + 1⟩, [(List.replicate 63 f).flatten]) := by
  intro n
  induction n with
  | zero => intro m cn _ hpos; exact absurd hpos (by omega)
  | succ n ih =>
    intro m cn hmn _
    by_cases hn : n = 0
    · subst hn
      have hm : m = 62 := by omega
      subst hm
      have hcond : samples_per_chunk ≤ 62 * CHUNK_SIZE + CHUNK_SIZE := by decide
      have hstep : record_step ⟨List.replicate 62 f, 62 * CHUNK_SIZE, cn⟩ f
          = (⟨[], 0, cn + 1⟩, some ((List.replicate 62 f ++ [f]).flatten)) := by
        simp [record_step, hcond]
      rw [List.replicate_one, record_run, hstep, ← List.replicate_succ']
      rfl
    · have hcond : ¬ (samples_per_chunk ≤ m * CHUNK_SIZE + CHUNK_SIZE) := by
        have hCS : CHUNK_SIZE = 1024 := rfl
        have hSP : samples_per_chunk = 64000 := rfl
        rw [hCS, hSP]
        omega
      have hstep : record_step ⟨List.replicate m f, m * CHUNK_SIZE, cn⟩ f
          = (⟨List.replicate m f ++ [f], m * CHUNK_SIZE + CHUNK_SIZE, cn⟩, none) := by
        simp [record_step, hcond]
      have harith : m * CHUNK_SIZE + CHUNK_SIZE = (m + 1) * CHUNK_SIZE := by ring
      have hrun : record_run ⟨List.replicate m f, m * CHUNK_SIZE, cn⟩
            (List.replicate (n + 1) f)
          = record_run ⟨List.replicate (m + 1) f, (m + 1) * CHUNK_SIZE, cn⟩
            (List.replicate n f) := by
        rw [List.replicate_succ, record_run, hstep, ← List.replicate_succ', harith]
        rfl
      rw [hrun]
      exact ih (m + 1) cn (by omega) (by omega)

/-- C7 counterexample: 63 device reads of `CHUNK_SIZE` samples produce exactly
one emitted chunk, of `63 * CHUNK_SIZE = 64512` samples — not
`chunk_duration × rate = samples_per_chunk = 64000` as the claim states. -/
theorem chunk_length_counterexample :
    ((record_run initRecorder ceFrames).2.map List.length) = [63 * CHUNK_SIZE] ∧
      63 * CHUNK_SIZE ≠ samples_per_chunk := by
  constructor
  · have h0 : initRecorder
        = ⟨List.replicate 0 (List.replicate CHUNK_SIZE 0), 0 * CHUNK_SIZE, 0⟩ := by
      simp [initRecorder]
    rw [ceFrames, h0,
      record_run_replicate (List.replicate CHUNK_SIZE 0) 63 0 0 (by omega) (by omega)]
    have hlen : ((List.replicate 63 (List.replicate CHUNK_SIZE (0 : Int))).flatten).length
        = 63 * CHUNK_SIZE := by
      rw [List.length_flatten, List.map_replicate, List.length_replicate, List.sum_replicate,
        smul_eq_mul]
    rw [List.map_cons, List.map_nil, hlen]
  · decide

/-- C7 (amended): from a fresh recorder, over any stream of full
`CHUNK_SIZE`-sample device reads, every emitted chunk has exactly
`63 * CHUNK_SIZE = 64512` samples (the least whole number of reads reaching
`samples_per_chunk`), and each emission resets the accumulator to empty. -/
theorem chunk_length_and_reset (stream : List (List Int))
    (hs : ∀ d ∈ stream, d.length = CHUNK_SIZE) :
    (∀ c ∈ (record_run initRecorder stream).2, c.length = 63 * CHUNK_SIZE) ∧
      (∀ (st : AudioRecorder) (d : List Int),
        ((record_step st d).2).isSome →
          (record_step st d).1.current_chunk = [] ∧ (record_step st d).1.total_samples = 0) := by
  constructor
  · exact record_run_lengths stream hs initRecorder (by simp [initRecorder])
      (by simp [initRecorder]) (by simp [initRecorder])
  · intro st d hsome
    rw [record_step] at hsome ⊢
    by_cases hemit : samples_per_chunk ≤ st.total_samples + CHUNK_SIZE
    · simp [hemit]
    · simp [hemit] at hsome

/-- C7 amended-claim witness at the concrete 63-read stream. -/
theorem chunk_length_and_reset_witness :
    (∀ d ∈ ceFrames, d.length = CHUNK_SIZE) ∧
      (∀ c ∈ (record_run initRecorder ceFrames).2, c.length = 63 * CHUNK_SIZE) :=
  ⟨fun d hd => by rw [(List.eq_of_mem_replicate hd : d = List.replicate CHUNK_SIZE 0)]; simp,
   (chunk_length_and_reset ceFrames (fun d hd => by
      rw [(List.eq_of_mem_replicate hd : d = List.replicate CHUNK_SIZE 0)]; simp)).1⟩

/-- A diagonal run ending at row `i` has length at most `i + 1`. -/
theorem suffRun_le_left (a b : List String) : ∀ i j, suffRun a b i j ≤ i + 1 := by
  intro i
  induction i with
  | zero => intro j; rw [suffRun]; split <;> omega
  | succ i ih =>
    intro j
    cases j with
    | zero => rw [suffRun]; split <;> omega
    | succ j => rw [suffRun]; split <;> [exact Nat.succ_le_succ (ih j); omega]

/-- A diagonal run ending at column `j` has length at most `j + 1`. -/
theorem suffRun_le_right (a b : List String) : ∀ i j, suffRun a b i j ≤ j + 1 := by
  intro i
  induction i with
  | zero => intro j; rw [suffRun]; split <;> omega
  | succ i ih =>
    intro j
    cases j with
    | zero => rw [suffRun]; split <;> omega
    | succ j =>
      rw [suffRun]
      split <;> [exact Nat.succ_le_succ (ih j); omega]

/-- If the two positions do not carry equal in-range elements, no run ends
there. -/
theorem suffRun_eq_zero (a b : List String) (i j : Nat)
    (h : ¬ ((a.get? i).isSome ∧ a.get? i = b.get? j)) : suffRun a b i j = 0 := by
  cases i with
  | zero => rw [suffRun, if_neg h]
  | succ i => cases j with
    | zero => rw [suffRun, if_neg h]
    | succ j => rw [suffRun, if_neg h]

/-- If the two positions carry equal in-range elements, a run ends there. -/
theorem suffRun_pos (a b : List String) (i j : Nat)
    (h : (a.get? i).isSome ∧ a.get? i = b.get? j) : 1 ≤ suffRun a b i j := by
  cases i with
  | zero => rw [suffRun, if_pos h]
  | succ i => cases j with
    | zero => rw [suffRun, if_pos h]
    | succ j => rw [suffRun, if_pos h]; omega

/-- The recurrence of `suffRun` at interior positions. -/
theorem suffRun_succ_succ (a b : List String) (i j : Nat)
    (h : (a.get? (i + 1)).isSome ∧ a.get? (i + 1) = b.get? (j + 1)) :
    suffRun a b (i + 1) (j + 1) = suffRun a b i j + 1 := by
  rw [suffRun, if_pos h]

/-- Common runs restrict to shorter lengths. -/
theorem isCommonRun_mono (a b : List String) (i j L K : Nat)
    (h : isCommonRun a b i j L) (hK : K ≤ L) : isCommonRun a b i j K := by
  obtain ⟨h1, h2, h3⟩ := h
  exact ⟨by omega, by omega, fun t ht => h3 t (by omega)⟩

/-- A common run can be extended by one more matching element at its end. -/
theorem isCommonRun_append (a b : List String) (i j L : Nat)
    (h : isCommonRun a b i j L)
    (hsome : (a.get? (i + L)).isSome) (heq : a.get? (i + L) = b.get? (j + L)) :
    isCommonRun a b i j (L + 1) := by
  obtain ⟨h1, h2, h3⟩ := h
  obtain ⟨x, hx⟩ := Option.isSome_iff_exists.mp hsome
  have hxa : i + L < a.length := List.get?_eq_some.mp hx |>.1
  have hxb : j + L < b.length := List.get?_eq_some.mp (heq ▸ hx) |>.1
  refine ⟨by omega, by omega, fun t ht => ?_⟩
  rcases Nat.lt_or_ge t L with h' | h'
  · exact h3 t h'
  · have : t = L := by omega
    subst this
    exact heq

/-- A common run can be extended by one more matching element before its
start. -/
theorem isCommonRun_prepend (a b : List String) (i j L : Nat)
    (h : isCommonRun a b (i + 1) (j + 1) L)
    (hsome : (a.get? i).isSome) (heq : a.get? i = b.get? j) :
    isCommonRun a b i j (L + 1) := by
  obtain ⟨h1, h2, h3⟩ := h
  refine ⟨by omega, by omega, fun t ht => ?_⟩
  cases t with
  | zero => simpa using heq
  | succ t =>
    have := h3 t (by omega)
    have e1 : i + (t + 1) = i + 1 + t := by omega
    have e2 : j + (t + 1) = j + 1 + t := by omega
    rw [e1, e2]
    exact this

/-- A positive-length common run yields a diagonal run of at least that length
at its final position. -/
theorem le_suffRun_of_isCommonRun (a b : List String) :
    ∀ (L i j : Nat), isCommonRun a b i j L → 0 < L →
      L ≤ suffRun a b (i + L - 1) (j + L - 1) := by
  intro L
  induction L with
  | zero => intro i j _ h0; omega
  | succ L ih =>
    intro i j h _
    obtain ⟨h1, h2, h3⟩ := h
    have hlast : a.get? (i + L) = b.get? (j + L) := h3 L (by omega)
    have hsome : (a.get? (i + L)).isSome := by
      have : i + L < a.length := by omega
      rw [List.get?_eq_get this]
      rfl
    cases L with
    | zero =>
      simpa using suffRun_pos a b i j ⟨by simpa using hsome, by simpa using hlast⟩
    | succ L =>
      have hrun : isCommonRun a b i j (L + 1) :=
        isCommonRun_mono a b i j _ _ ⟨h1, h2, h3⟩ (by omega)
      have hih := ih i j hrun (by omega)
      have e1 : i + (L + 1) - 1 = i + L := by omega
      have e2 : j + (L + 1) - 1 = j + L := by omega
      rw [e1, e2] at hih
      have hcase : i + L + 1 = (i + L) + 1 := rfl
      have hstep : suffRun a b (i + L + 1) (j + L + 1) = suffRun a b (i + L) (j + L) + 1 :=
        suffRun_succ_succ a b (i + L) (j + L)
          ⟨by simpa using hsome, by simpa using hlast⟩
      have e3 : i + (L + 1 + 1) - 1 = i + L + 1 := by omega
      have e4 : j + (L + 1 + 1) - 1 = j + L + 1 := by omega
      rw [e3, e4, hstep]
      omega

/-- A positive diagonal run at `(i, j)` comes from a common run of the same
length ending at `(i, j)`. -/
theorem suffRun_isCommonRun (a b : List String) :
    ∀ (i j : Nat), 0 < suffRun a b i j →
      isCommonRun a b (i + 1 - suffRun a b i j) (j + 1 - suffRun a b i j) (suffRun a b i j) := by
  intro i
  induction i with
  | zero =>
    intro j hpos
    rw [suffRun] at hpos ⊢
    split at hpos
    · rename_i h
      obtain ⟨x, hx⟩ := Option.isSome_iff_exists.mp h.1
      simp only [if_pos h]
      refine ⟨?_, ?_, ?_⟩
      · have : (0 : Nat) < a.length := (List.get?_eq_some.mp hx).1
        omega
      · have : j < b.length := (List.get?_eq_some.mp (h.2 ▸ hx)).1
        omega
      · intro t ht
        have : t = 0 := by omega
        subst this
        simpa using h.2
    · omega
  | succ i ih =>
    intro j hpos
    cases j with
    | zero =>
      rw [suffRun] at hpos ⊢
      split at hpos
      · rename_i h
        obtain ⟨x, hx⟩ := Option.isSome_iff_exists.mp h.1
        simp only [if_pos h]
        refine ⟨?_, ?_, ?_⟩
        · have : i + 1 < a.length := (List.get?_eq_some.mp hx).1
          omega
        · have : (0 : Nat) < b.length := (List.get?_eq_some.mp (h.2 ▸ hx)).1
          omega
        · intro t ht
          have : t = 0 := by omega
          subst this
          simpa using h.2
      · omega
    | succ j =>
      by_cases h : (a.get? (i + 1)).isSome ∧ a.get? (i + 1) = b.get? (j + 1)
      · rw [suffRun_succ_succ a b i j h]
        by_cases ht : 0 < suffRun a b i j
        · have hrun := ih j ht
          have hle1 := suffRun_le_left a b i j
          have hle2 := suffRun_le_right a b i j
          have e1 : i + 1 - suffRun a b i j + suffRun a b i j = i + 1 := by omega
          have hext := isCommonRun_append a b
            (i + 1 - suffRun a b i j) (j + 1 - suffRun a b i j) (suffRun a b i j)
            hrun
            (by rw [e1]; exact h.1)
            (by
              have e2 : j + 1 - suffRun a b i j + suffRun a b i j = j + 1 := by omega
              rw [e1, e2]; exact h.2)
          have e3 : i + 1 + 1 - (suffRun a b i j + 1) = i + 1 - suffRun a b i j := by omega
          have e4 : j + 1 + 1 - (suffRun a b i j + 1) = j + 1 - suffRun a b i j := by omega
          rw [e3, e4]
          exact hext
        · have hz : suffRun a b i j = 0 := by omega
          rw [hz]
          obtain ⟨x, hx⟩ := Option.isSome_iff_exists.mp h.1
          refine ⟨?_, ?_, ?_⟩
          · have : i + 1 < a.length := (List.get?_eq_some.mp hx).1
            omega
          · have : j + 1 < b.length := (List.get?_eq_some.mp (h.2 ▸ hx)).1
            omega
          · intro t ht'
            have : t = 0 := by omega
            subst this
            simpa using h.2
      · rw [suffRun_eq_zero a b (i + 1) (j + 1) h] at hpos
        omega

/-- Soundness of `b2j`: listed positions carry the element. -/
theorem mem_b2j_sound (b : List String) (x : String) (j : Nat)
    (h : j ∈ b2j b x) : b.get? j = some x := by
  rw [b2j] at h
  split at h
  · simp at h
  · have := List.mem_filter.mp h
    simpa using this.2

/-- Completeness of `b2j` when the auto-junk heuristic is off
(`len(b) < 200`): every position of the element is listed. -/
theorem mem_b2j_complete (b : List String) (x : String) (j : Nat)
    (hno : b.length < 200) (h : b.get? j = some x) : j ∈ b2j b x := by
  rw [b2j]
  have hcond : ¬ (200 ≤ b.length ∧ b.length / 100 + 1 <
      ((List.range b.length).filter (fun j => decide (b.get? j = some x))).length) := by
    intro hc
    omega
  rw [if_neg hcond]
  refine List.mem_filter.mpr ⟨?_, by simpa using h⟩
  exact List.mem_range.mpr (List.get?_eq_some.mp h).1

/-- Invariant of the inner chaining loop of `find_longest_match`, processing
the positions `js` of the current row element `a[i] = ai`: the running best
stays a genuine common run, never shrinks, ends up dominating the diagonal
runs at all processed positions, and the fresh row dictionary records exactly
the diagonal run lengths at the processed positions. -/
theorem innerLoop_spec (a b : List String) (i : Nat) (ai : String)
    (j2len : Nat → Nat)
    (hrow : ∀ j, b.get? j = some ai →
      (if j = 0 then 0 else j2len (j - 1)) + 1 = suffRun a b i j) :
    ∀ (js : List Nat) (best : Match) (acc : Nat → Nat),
      (∀ j ∈ js, b.get? j = some ai) →
      isCommonRun a b best.a best.b best.size →
      isCommonRun a b (innerLoop i j2len js best acc).1.a
          (innerLoop i j2len js best acc).1.b (innerLoop i j2len js best acc).1.size ∧
      best.size ≤ (innerLoop i j2len js best acc).1.size ∧
      (∀ j ∈ js, suffRun a b i j ≤ (innerLoop i j2len js best acc).1.size) ∧
      (∀ x, (innerLoop i j2len js best acc).2 x
        = if x ∈ js then suffRun a b i x else acc x) := by
  intro js
  induction js with
  | nil =>
    intro best acc _ hB
    exact ⟨hB, le_refl _, by simp, by simp [innerLoop]⟩
  | cons j rest ih =>
    intro best acc hjs hB
    have hj : b.get? j = some ai := hjs j (List.mem_cons_self j rest)
    have hk : (if j = 0 then 0 else j2len (j - 1)) + 1 = suffRun a b i j := hrow j hj
    have hjs' : ∀ j' ∈ rest, b.get? j' = some ai :=
      fun j' h' => hjs j' (List.mem_cons_of_mem j h')
    simp only [innerLoop, hk]
    by_cases hcmp : best.size < suffRun a b i j
    · simp only [if_pos hcmp]
      have hB' : isCommonRun a b (i + 1 - suffRun a b i j) (j + 1 - suffRun a b i j)
          (suffRun a b i j) := suffRun_isCommonRun a b i j (by omega)
      obtain ⟨c1, c2, c3, c4⟩ :=
        ih ⟨i + 1 - suffRun a b i j, j + 1 - suffRun a b i j, suffRun a b i j⟩
          (fun x => if x = j then suffRun a b i j else acc x) hjs' hB'
      refine ⟨c1, le_trans (le_of_lt hcmp) c2, ?_, ?_⟩
      · intro j' hmem
        rcases List.mem_cons.mp hmem with h' | h'
        · subst h'; exact c2
        · exact c3 j' h'
      · intro x
        rw [c4 x]
        by_cases hx : x ∈ rest
        · simp [hx, List.mem_cons]
        · by_cases hxj : x = j
          · subst hxj; simp [hx]
          · simp [hx, hxj, List.mem_cons]
    · simp only [if_neg hcmp]
      obtain ⟨c1, c2, c3, c4⟩ :=
        ih best (fun x => if x = j then suffRun a b i j else acc x) hjs' hB
      refine ⟨c1, c2, ?_, ?_⟩
      · intro j' hmem
        rcases List.mem_cons.mp hmem with h' | h'
        · subst h'; exact le_trans (by omega) c2
        · exact c3 j' h'
      · intro x
        rw [c4 x]
        by_cases hx : x ∈ rest
        · simp [hx, List.mem_cons]
        · by_cases hxj : x = j
          · subst hxj; simp [hx]
          · simp [hx, hxj, List.mem_cons]

/-- Invariant of the outer chaining loop of `find_longest_match` when the
auto-junk heuristic is off (`len(b) < 200`): starting at row `i0` with the
dictionary holding row `i0 - 1`'s diagonal run lengths and a best block that
is a common run dominating all rows below `i0`, the final best block is a
common run dominating the diagonal runs at all positions. -/
theorem outerLoop_spec (a b : List String) (hno : b.length < 200) :
    ∀ (rest : List String) (i0 : Nat) (best : Match) (j2len : Nat → Nat),
      (∀ t, rest.get? t = a.get? (i0 + t)) →
      i0 + rest.length = a.length →
      (∀ j, j2len j = match i0 with | 0 => 0 | i' + 1 => suffRun a b i' j) →
      isCommonRun a b best.a best.b best.size →
      (∀ i' j, i' < i0 → suffRun a b i' j ≤ best.size) →
      isCommonRun a b (outerLoop (b2j b) rest i0 best j2len).a
          (outerLoop (b2j b) rest i0 best j2len).b
          (outerLoop (b2j b) rest i0 best j2len).size ∧
      (∀ i' j, i' < a.length →
        suffRun a b i' j ≤ (outerLoop (b2j b) rest i0 best j2len).size) := by
  intro rest
  induction rest with
  | nil =>
    intro i0 best j2len _ hlen _ hB hC
    simp only [outerLoop]
    refine ⟨hB, fun i' j h => hC i' j ?_⟩
    simp only [List.length_nil, Nat.add_zero] at hlen
    omega
  | cons x rest' ih =>
    intro i0 best j2len hrest hlen hj2 hB hC
    have hai : a.get? i0 = some x := by
      have := hrest 0
      simp only [List.get?_cons_zero, Nat.add_zero] at this
      exact this.symm
    have hrow : ∀ j, b.get? j = some x →
        (if j = 0 then 0 else j2len (j - 1)) + 1 = suffRun a b i0 j := by
      intro j hbj
      have hcond : (a.get? i0).isSome ∧ a.get? i0 = b.get? j := by
        refine ⟨by rw [hai]; rfl, by rw [hai, hbj]⟩
      cases i0 with
      | zero =>
        have h1 : suffRun a b 0 j = 1 := by rw [suffRun, if_pos hcond]
        rw [h1, hj2 (j - 1)]
        split <;> rfl
      | succ i' =>
        cases j with
        | zero =>
          have h1 : suffRun a b (i' + 1) 0 = 1 := by rw [suffRun, if_pos hcond]
          simp [h1]
        | succ jj =>
          rw [suffRun_succ_succ a b i' jj hcond]
          have h2 : j2len jj = suffRun a b i' jj := hj2 jj
          simp [h2]
    have hmem : ∀ j ∈ b2j b x, b.get? j = some x := fun j hj => mem_b2j_sound b x j hj
    obtain ⟨c1, c2, c3, c4⟩ :=
      innerLoop_spec a b i0 x j2len hrow (b2j b x) best (fun _ => 0) hmem hB
    simp only [outerLoop]
    refine ih (i0 + 1) (innerLoop i0 j2len (b2j b x) best (fun _ => 0)).1
      (innerLoop i0 j2len (b2j b x) best (fun _ => 0)).2 ?_ ?_ ?_ c1 ?_
    · intro t
      have := hrest (t + 1)
      simp only [List.get?_cons_succ] at this
      rw [this]
      congr 1
      omega
    · simp only [List.length_cons] at hlen
      omega
    · intro j
      rw [c4 j]
      by_cases hjmem : j ∈ b2j b x
      · simp [hjmem]
      · have hne : ¬ (b.get? j = some x) := fun h => hjmem (mem_b2j_complete b x j hno h)
        have hz : suffRun a b i0 j = 0 := by
          apply suffRun_eq_zero
          rintro ⟨hs, he⟩
          exact hne (by rw [← he, hai])
        simp [hjmem, hz]
    · intro i' j hi'
      rcases Nat.lt_or_ge i' i0 with h' | h'
      · exact le_trans (hC i' j h') c2
      · have : i' = i0 := by omega
        subst this
        by_cases hjmem : j ∈ b2j b x
        · exact c3 j hjmem
        · have hne : ¬ (b.get? j = some x) := fun h => hjmem (mem_b2j_complete b x j hno h)
          have hz : suffRun a b i' j = 0 := by
            apply suffRun_eq_zero
            rintro ⟨hs, he⟩
            exact hne (by rw [← he, hai])
          omega

/-- When the best block is a common run dominating every diagonal run, the
backward extension loop does nothing: extending would produce a longer run. -/
theorem extendBack_noop (a b : List String) (bi bj bs : Nat)
    (hB : isCommonRun a b bi bj bs)
    (hC : ∀ i j, suffRun a b i j ≤ bs) :
    extendBack a b bi bj bs = ⟨bi, bj, bs⟩ := by
  cases bi with
  | zero => rfl
  | succ bi' =>
    cases bj with
    | zero => rfl
    | succ bj' =>
      rw [extendBack, if_neg]
      rintro ⟨hsome, heq⟩
      have hext : isCommonRun a b bi' bj' (bs + 1) :=
        isCommonRun_prepend a b bi' bj' bs hB hsome heq
      have hle := le_suffRun_of_isCommonRun a b (bs + 1) bi' bj' hext (by omega)
      have e1 : bi' + (bs + 1) - 1 = bi' + bs := by omega
      have e2 : bj' + (bs + 1) - 1 = bj' + bs := by omega
      rw [e1, e2] at hle
      have := hC (bi' + bs) (bj' + bs)
      omega

/-- When the best block is a common run dominating every diagonal run, the
forward extension loop does nothing. -/
theorem extendFwd_noop (a b : List String) (bi bj bs fuel : Nat)
    (hB : isCommonRun a b bi bj bs)
    (hC : ∀ i j, suffRun a b i j ≤ bs) :
    extendFwd a b bi bj (fuel + 1) bs = ⟨bi, bj, bs⟩ := by
  rw [extendFwd, if_neg]
  rintro ⟨hsome, heq⟩
  have hext : isCommonRun a b bi bj (bs + 1) :=
    isCommonRun_append a b bi bj bs hB hsome heq
  have hle := le_suffRun_of_isCommonRun a b (bs + 1) bi bj hext (by omega)
  have e1 : bi + (bs + 1) - 1 = bi + bs := by omega
  have e2 : bj + (bs + 1) - 1 = bj + bs := by omega
  rw [e1, e2] at hle
  have := hC (bi + bs) (bj + bs)
  omega

/-- A diagonal run out of range is empty (left sequence). -/
theorem suffRun_eq_zero_left (a b : List String) (i j : Nat)
    (h : a.length ≤ i) : suffRun a b i j = 0 := by
  apply suffRun_eq_zero
  rintro ⟨hsome, -⟩
  rw [List.get?_eq_none.mpr h] at hsome
  simp at hsome

/-- A diagonal run out of range is empty (right sequence). -/
theorem suffRun_eq_zero_right (a b : List String) (i j : Nat)
    (h : b.length ≤ j) : suffRun a b i j = 0 := by
  apply suffRun_eq_zero
  rintro ⟨hsome, heq⟩
  rw [List.get?_eq_none.mpr h] at heq
  rw [heq] at hsome
  simp at hsome

/-- Correctness of the embedded `find_longest_match` when the auto-junk
heuristic is off (`len(b) < 200`): the returned block is a common contiguous
run of the returned size, and no diagonal run is longer. -/
theorem flm_correct (a b : List String) (hno : b.length < 200) :
    isCommonRun a b (find_longest_match a b).a (find_longest_match a b).b
        (find_longest_match a b).size ∧
      ∀ i j, suffRun a b i j ≤ (find_longest_match a b).size := by
  have hzero : isCommonRun a b (0 : Nat) 0 0 :=
    ⟨Nat.zero_le _, Nat.zero_le _, fun t ht => absurd ht (Nat.not_lt_zero t)⟩
  obtain ⟨h1, h2⟩ := outerLoop_spec a b hno a 0 ⟨0, 0, 0⟩ (fun _ => 0)
    (fun t => by simp) (by simp) (fun j => rfl) hzero
    (fun i' j h => absurd h (Nat.not_lt_zero i'))
  have h2' : ∀ i j, suffRun a b i j
      ≤ (outerLoop (b2j b) a 0 ⟨0, 0, 0⟩ (fun _ => 0)).size := by
    intro i j
    rcases Nat.lt_or_ge i a.length with h | h
    · exact h2 i j h
    · rw [suffRun_eq_zero_left a b i j h]
      omega
  have hback := extendBack_noop a b
    (outerLoop (b2j b) a 0 ⟨0, 0, 0⟩ (fun _ => 0)).a
    (outerLoop (b2j b) a 0 ⟨0, 0, 0⟩ (fun _ => 0)).b
    (outerLoop (b2j b) a 0 ⟨0, 0, 0⟩ (fun _ => 0)).size h1 h2'
  have hflm : find_longest_match a b = outerLoop (b2j b) a 0 ⟨0, 0, 0⟩ (fun _ => 0) := by
    simp only [find_longest_match, hback]
    exact extendFwd_noop a b _ _ _ a.length h1 h2'
  rw [hflm]
  exact ⟨h1, h2'⟩

/-- Any member of a list bounds its `foldr max 0` from below. -/
theorem le_foldr_max (l : List Nat) (x : Nat) (h : x ∈ l) : x ≤ l.foldr max 0 := by
  induction l with
  | nil => simp at h
  | cons y t ih =>
    rcases List.mem_cons.mp h with h' | h'
    · subst h'; exact le_max_left _ _
    · exact le_trans (ih h') (le_max_right _ _)

/-- An upper bound on all members bounds `foldr max 0` from above. -/
theorem foldr_max_le (l : List Nat) (c : Nat) (h : ∀ x ∈ l, x ≤ c) :
    l.foldr max 0 ≤ c := by
  induction l with
  | nil => simp
  | cons y t ih =>
    simp only [List.foldr_cons]
    exact max_le (h y (List.mem_cons_self y t)) (ih fun x hx => h x (List.mem_cons_of_mem y hx))

/-- `foldr max 0` is zero or attained by a member. -/
theorem foldr_max_mem (l : List Nat) : l.foldr max 0 = 0 ∨ l.foldr max 0 ∈ l := by
  induction l with
  | nil => exact Or.inl rfl
  | cons y t ih =>
    simp only [List.foldr_cons]
    rcases Nat.le_total y (t.foldr max 0) with h | h
    · rw [max_eq_right h]
      rcases ih with h' | h'
      · exact Or.inl h'
      · exact Or.inr (List.mem_cons_of_mem y h')
    · rw [max_eq_left h]
      exact Or.inr (List.mem_cons_self y t)

/-- Every diagonal run is bounded by `maxSuff`. -/
theorem suffRun_le_maxSuff (a b : List String) (i j : Nat) :
    suffRun a b i j ≤ maxSuff a b := by
  rcases Nat.lt_or_ge i a.length with hi | hi
  · rcases Nat.lt_or_ge j b.length with hj | hj
    · refine le_trans (le_foldr_max _ _ ?_)
        (le_foldr_max _ _ (List.mem_map.mpr ⟨i, List.mem_range.mpr hi, rfl⟩))
      exact List.mem_map.mpr ⟨j, List.mem_range.mpr hj, rfl⟩
    · rw [suffRun_eq_zero_right a b i j hj]; omega
  · rw [suffRun_eq_zero_left a b i j hi]; omega

/-- `maxSuff` is bounded by any bound on all diagonal runs. -/
theorem maxSuff_le (a b : List String) (c : Nat)
    (h : ∀ i j, suffRun a b i j ≤ c) : maxSuff a b ≤ c := by
  apply foldr_max_le
  intro x hx
  obtain ⟨i, _, hi⟩ := List.mem_map.mp hx
  subst hi
  apply foldr_max_le
  intro y hy
  obtain ⟨j, _, hj⟩ := List.mem_map.mp hy
  subst hj
  exact h i j

/-- With the auto-junk heuristic off, the size returned by
`find_longest_match` is exactly the longest contiguous common run length. -/
theorem flm_size_eq_maxSuff (a b : List String) (hno : b.length < 200) :
    (find_longest_match a b).size = maxSuff a b := by
  obtain ⟨hrun, hdom⟩ := flm_correct a b hno
  apply Nat.le_antisymm
  · rcases Nat.eq_zero_or_pos (find_longest_match a b).size with h0 | hpos
    · omega
    · have hle := le_suffRun_of_isCommonRun a b (find_longest_match a b).size
        (find_longest_match a b).a (find_longest_match a b).b hrun hpos
      exact le_trans hle (suffRun_le_maxSuff a b _ _)
  · exact maxSuff_le a b _ hdom

/-- In a chronologically ordered list, the head starts no later than any
later word. -/
theorem chron_head_le : ∀ (t : List Word) (w : Word), Chronological (w :: t) →
    ∀ v ∈ t, w.start ≤ v.start := by
  intro t
  induction t with
  | nil => intro w _ v hv; simp at hv
  | cons u t' ih =>
    intro w hch v hv
    have h1 : w.start ≤ u.start := (List.chain'_cons.mp hch).1
    have h2 : Chronological (u :: t') := (List.chain'_cons.mp hch).2
    rcases List.mem_cons.mp hv with h | h
    · subst h; exact h1
    · exact le_trans h1 (ih u h2 v h)

/-- On a chronologically ordered list, filtering by `start < OVERLAP_SEC`
keeps exactly an initial segment. -/
theorem filter_start_eq_takeWhile : ∀ (l : List Word), Chronological l →
    l.filter (fun w => decide (w.start < OVERLAP_SEC))
      = l.takeWhile (fun w => decide (w.start < OVERLAP_SEC)) := by
  intro l
  induction l with
  | nil => intro _; rfl
  | cons w t ih =>
    intro hch
    have htail : Chronological t := List.Chain'.tail hch
    by_cases hw : w.start < OVERLAP_SEC
    · simp only [List.filter_cons, List.takeWhile_cons, hw, decide_True, if_true]
      rw [ih htail]
    · have hfil : t.filter (fun w => decide (w.start < OVERLAP_SEC)) = [] := by
        rw [List.filter_eq_nil_iff]
        intro v hv
        simp only [decide_eq_true_eq]
        intro hlt
        exact hw (lt_of_le_of_lt (chron_head_le t w hch v hv) hlt)
      simp only [List.filter_cons, List.takeWhile_cons, hw, decide_False]
      exact hfil

/-- On a chronologically ordered chunk, the current overlap candidate tokens
are the normalized texts of an initial segment of `words`: position `k`
within the candidate list is position `k` within `words`. -/
theorem currTokens_take (words : List Word) (hc : Chronological words) :
    curr_words_only words
      = (words.take ((curr_words_only words).length)).map (fun w => normText w.word) := by
  have h1 : curr_words_only words
      = (words.filter (fun w => decide (w.start < OVERLAP_SEC))).map
          (fun w => normText w.word) := by
    simp [curr_words_only, curr_overlap, List.map_map]
  rw [h1, filter_start_eq_takeWhile words hc]
  have hpref : words.takeWhile (fun w => decide (w.start < OVERLAP_SEC)) <+: words :=
    List.takeWhile_prefix _
  have htake := List.prefix_iff_eq_take.mp hpref
  rw [List.length_map, ← htake]

/-- Unfolding of `trim_index`. -/
theorem trim_index_eq (prev words : List Word) :
    trim_index prev words =
      if 2 < (find_longest_match (prev_words_only prev) (curr_words_only words)).size then
        (find_longest_match (prev_words_only prev) (curr_words_only words)).b
          + (find_longest_match (prev_words_only prev) (curr_words_only words)).size
      else 0 := rfl

/-- C1 (amended): on chronologically ordered inputs with fewer than 200
current-overlap candidate tokens (so difflib's auto-junk heuristic is
inactive), the merger computes the longest contiguous common token run
between the candidate sets `P` and `C`: `maxSuff P C` bounds every common
run; when it is at most 2 the trim index is 0 and all of `current_words` is
emitted; when it exceeds 2 the trim index is `j + maxSuff P C` for a longest
common run at `(i, j)` — its end position within `C`, which is also its end
position within `current_words` since `C` normalizes an initial segment —
and exactly `current_words[trim_index:]` is emitted. -/
theorem trim_uses_longest_common_run (self : TranscriptionManager) (words : List Word)
    (hw : words ≠ []) (hp : Chronological self.prev_words) (hc : Chronological words)
    (hsmall : (curr_words_only words).length < 200) :
    (∀ i j L, isCommonRun (prev_words_only self.prev_words) (curr_words_only words) i j L →
        L ≤ maxSuff (prev_words_only self.prev_words) (curr_words_only words)) ∧
    (maxSuff (prev_words_only self.prev_words) (curr_words_only words) ≤ 2 →
      trim_index self.prev_words words = 0 ∧ (update self words).new_words = words) ∧
    (2 < maxSuff (prev_words_only self.prev_words) (curr_words_only words) →
      ∃ i j, isCommonRun (prev_words_only self.prev_words) (curr_words_only words) i j
          (maxSuff (prev_words_only self.prev_words) (curr_words_only words)) ∧
        trim_index self.prev_words words
          = j + maxSuff (prev_words_only self.prev_words) (curr_words_only words) ∧
        trim_index self.prev_words words ≤ (curr_words_only words).length ∧
        curr_words_only words
          = (words.take ((curr_words_only words).length)).map (fun w => normText w.word) ∧
        (update self words).new_words = words.drop (trim_index self.prev_words words)) := by
  have hsz : (find_longest_match (prev_words_only self.prev_words)
      (curr_words_only words)).size
      = maxSuff (prev_words_only self.prev_words) (curr_words_only words) :=
    flm_size_eq_maxSuff _ _ hsmall
  obtain ⟨hrun, hdom⟩ :=
    flm_correct (prev_words_only self.prev_words) (curr_words_only words) hsmall
  refine ⟨?_, ?_, ?_⟩
  · intro i j L hL
    rcases Nat.eq_zero_or_pos L with h0 | hpos
    · omega
    · exact le_trans (le_suffRun_of_isCommonRun _ _ L i j hL hpos)
        (suffRun_le_maxSuff _ _ _ _)
  · intro hle
    have ht : trim_index self.prev_words words = 0 := by
      rw [trim_index_eq, if_neg]
      omega
    exact ⟨ht, by rw [update_new_words, ht, List.drop_zero]⟩
  · intro hgt
    have htr : trim_index self.prev_words words
        = (find_longest_match (prev_words_only self.prev_words) (curr_words_only words)).b
          + maxSuff (prev_words_only self.prev_words) (curr_words_only words) := by
      rw [trim_index_eq, if_pos (by omega), hsz]
    refine ⟨(find_longest_match (prev_words_only self.prev_words) (curr_words_only words)).a,
      (find_longest_match (prev_words_only self.prev_words) (curr_words_only words)).b,
      ?_, htr, ?_, currTokens_take words hc, update_new_words self words⟩
    · rw [← hsz]; exact hrun
    · rw [htr, ← hsz]; exact hrun.2.1

/-- C1 amended-claim witness at the example chunks: a 3-token overlap
(`brown fox jumps`) above the threshold. -/
theorem trim_uses_longest_common_run_witness :
    (exCur ≠ [] ∧ Chronological exPrev ∧ Chronological exCur ∧
      (curr_words_only exCur).length < 200) ∧
    2 < maxSuff (prev_words_only exPrev) (curr_words_only exCur) ∧
    (2 < maxSuff (prev_words_only exPrev) (curr_words_only exCur) →
      ∃ i j, isCommonRun (prev_words_only exPrev) (curr_words_only exCur) i j
          (maxSuff (prev_words_only exPrev) (curr_words_only exCur)) ∧
        trim_index exPrev exCur
          = j + maxSuff (prev_words_only exPrev) (curr_words_only exCur) ∧
        trim_index exPrev exCur ≤ (curr_words_only exCur).length ∧
        curr_words_only exCur
          = (exCur.take ((curr_words_only exCur).length)).map (fun w => normText w.word) ∧
        (update ⟨exPrev, 0⟩ exCur).new_words = exCur.drop (trim_index exPrev exCur)) :=
  ⟨⟨by decide, by decide, by decide, by decide⟩, by decide,
   (trim_uses_longest_common_run ⟨exPrev, 0⟩ exCur (by decide) (by decide) (by decide)
      (by decide)).2.2⟩

set_option maxRecDepth 400000 in
/-- C1 counterexample: with exactly 200 words in the current overlap window
and the token `x` occurring 4 times there (more than `200 // 100 + 1 = 3`),
difflib's auto-junk heuristic drops `x` from the position index, so although
the longest contiguous common run between the candidate sets (`x x x`) has
length 3 > 2, the matcher finds nothing: `trim_index` is 0 and the entire
chunk — duplicated overlap included — is emitted, contradicting the claim as
stated. -/
theorem autojunk_defeats_longest_run :
    cePrev ≠ [] ∧ ceCur ≠ [] ∧ Chronological cePrev ∧ Chronological ceCur ∧
      maxSuff (prev_words_only cePrev) (curr_words_only ceCur) = 3 ∧
      isCommonRun (prev_words_only cePrev) (curr_words_only ceCur) 1 1 3 ∧
      trim_index cePrev ceCur = 0 ∧
      (update ⟨cePrev, 0⟩ ceCur).new_words = ceCur := by decide

end Realtime
